import Mathlib

/-!
Shallow embedding of `src/examples/readability.js` (fathom's readability
example).  The file models, from the source: the text normalisation helpers
`trimLines` and `collapseNewlines`, the external edit-distance `leven`
(spec §6: standard Levenshtein), the `DiffStats` quality metric
(`compare` / `score`), the coefficient handling of `tunedContentFnodes`,
`deviationScore`, and the tuner's `randomTransition`.  The rule/fact engine
that executes the ruleset is an external collaborator (spec §6); it is
abstracted as an explicit `engine` function argument from a coefficient
record to an extraction function.  Strings are modelled as `String`
(lists of characters); JavaScript numbers whose claims only exercise exact
rational arithmetic are modelled as `ℚ`, with the special values `NaN` and
`+Infinity` made explicit in the `JsNum` codomain of `score`.
-/

namespace Readability

/-- The set of characters removed by JavaScript's `String.prototype.trim`
(ECMAScript WhiteSpace and LineTerminator code points). -/
def jsSpace (c : Char) : Bool :=
  c = ' ' || c = '\t' || c = '\n' || c = '\r' || c = '\x0b' || c = '\x0c'
    || c = '\u00A0' || c = '\u1680' || ('\u2000' ≤ c && c ≤ '\u200A')
    || c = '\u2028' || c = '\u2029' || c = '\u202F' || c = '\u205F'
    || c = '\u3000' || c = '\uFEFF'

/-- Remove trailing whitespace characters from a list of characters. -/
def trimTrail : List Char → List Char
  | [] => []
  | c :: rest =>
    let r := trimTrail rest
    if r.isEmpty then (if jsSpace c then [] else [c]) else c :: r

/-- JavaScript `l.trim()` on a single line: drop leading and trailing
whitespace. -/
def trimChars (l : List Char) : List Char :=
  trimTrail (l.dropWhile jsSpace)

/-- JavaScript `str.split('\n')` at the character-list level.  Always
returns at least one (possibly empty) line. -/
def splitLines : List Char → List (List Char)
  | [] => [[]]
  | c :: rest =>
    let s := splitLines rest
    if c = '\n' then [] :: s
    else (c :: s.headD []) :: s.tail

/-- JavaScript `lines.join('\n')` at the character-list level. -/
def joinLines : List (List Char) → List Char
  | [] => []
  | [l] => l
  | l :: l' :: rest => l ++ '\n' :: joinLines (l' :: rest)

/-- `trimLines` from readability.js, line 125: split on newlines, trim
each line, re-join with newlines (character-list level). -/
def trimLinesL (l : List Char) : List Char :=
  joinLines ((splitLines l).map trimChars)

/-- Worker for `collapseNewlines`: the flag records whether we are right
after an emitted newline, in which case further consecutive newlines are
skipped.  This computes JavaScript `str.replace(/\n\n+/g, '\n')`: a
maximal run of two or more newlines is greedily matched and replaced by a
single newline, which is the same as keeping the first newline of every
run and dropping the rest. -/
def collapseGo : Bool → List Char → List Char
  | _, [] => []
  | afterNl, c :: rest =>
    if c = '\n' then
      if afterNl then collapseGo true rest
      else '\n' :: collapseGo true rest
    else c :: collapseGo false rest

/-- `collapseNewlines` from readability.js, line 131, at the
character-list level: replace runs of line breaks with single ones. -/
def collapseNLL (l : List Char) : List Char :=
  collapseGo false l

/-- `trimLines` from readability.js, line 125 (String level). -/
def trimLines (s : String) : String :=
  ⟨trimLinesL s.data⟩

/-- `collapseNewlines` from readability.js, line 131 (String level). -/
def collapseNewlines (s : String) : String :=
  ⟨collapseNLL s.data⟩

/-- The normalisation used by `DiffStats.compare` (readability.js lines
158-159): `collapseNewlines(trimLines(·))`. -/
def normText (s : String) : String :=
  collapseNewlines (trimLines s)

/-- Whether a character list contains two consecutive newlines (the
redex of the `/\n\n+/` replacement). -/
def hasNN : List Char → Bool
  | [] => false
  | [_] => false
  | c₁ :: c₂ :: rest => (c₁ = '\n' && c₂ = '\n') || hasNN (c₂ :: rest)

/-- Modelled from the spec (§6, Edit Distance): the external `leven`
package, a standard Levenshtein distance counting minimum
insert/delete/substitute operations; character-list level. -/
def levenL : List Char → List Char → ℕ
  | [], ys => ys.length
  | x :: xs, [] => (x :: xs).length
  | x :: xs, y :: ys =>
    if x = y then levenL xs ys
    else 1 + min (levenL xs (y :: ys)) (min (levenL (x :: xs) ys) (levenL xs ys))
termination_by xs ys => xs.length + ys.length
decreasing_by all_goals simp [List.length] <;> omega

/-- Modelled from the spec (§6, Edit Distance): `leven(a, b)` on strings. -/
def leven (a b : String) : ℕ :=
  levenL a.data b.data

/-- A parsed document, reduced to the only facet the metric reads from
it: `textContent` of its (first child / element) node.  DOM construction
and the DOM tree itself are external (spec §6, DOM Utilities). -/
structure Dom where
  text : String
deriving DecidableEq

/-- `textContent` from readability.js, line 118: the concatenated textual
content of an entire DOM tree (`dom.firstChild.textContent`). -/
def textContent (dom : Dom) : String :=
  dom.text

/-- The 7 coefficients of `tunedContentFnodes` (readability.js line 34),
in their positional order. -/
structure Coeffs where
  coeffLinkDensity : ℚ
  coeffParagraphTag : ℚ
  coeffLength : ℚ
  coeffDifferentDepth : ℚ
  coeffDifferentTag : ℚ
  coeffSameTag : ℚ
  coeffStride : ℚ
deriving DecidableEq

/-- The default coefficient values of `tunedContentFnodes`
(readability.js line 34): `(1.5, 4.5, 2, 6.5, 2, 0.5, 0)`. -/
def defaultCoeffs : Coeffs :=
  ⟨1.5, 4.5, 2, 6.5, 2, 0.5, 0⟩

/-- JavaScript parameter binding for `tunedContentFnodes(...coeffs)`:
each positional argument that is missing falls back to that position's
default value; extra entries are ignored.  There is no validation of the
argument list. -/
def tunedCoeffs (coeffs : List ℚ) : Coeffs :=
  ⟨coeffs.getD 0 1.5, coeffs.getD 1 4.5, coeffs.getD 2 2, coeffs.getD 3 6.5,
   coeffs.getD 4 2, coeffs.getD 5 0.5, coeffs.getD 6 0⟩

/-- The coefficients in positional order, for position-indexed statements. -/
def Coeffs.toList (c : Coeffs) : List ℚ :=
  [c.coeffLinkDensity, c.coeffParagraphTag, c.coeffLength, c.coeffDifferentDepth,
   c.coeffDifferentTag, c.coeffSameTag, c.coeffStride]

/-- `tunedContentFnodes` (readability.js lines 34-115): binds the
coefficient list (with defaults) and returns the content-extraction
function.  The ruleset execution is the external rule/fact engine
(spec §6), abstracted as `engine`; the returned function yields the
`textContent` of each extracted element, which is all `DiffStats` reads
from it (readability.js line 159). -/
def tunedContentFnodes (engine : Coeffs → Dom → List String)
    (coeffs : List ℚ) : Dom → List String :=
  engine (tunedCoeffs coeffs)

/-- The object literal returned by `scoreByLength` (readability.js lines
40-46): a score and a note holding `inlineLength`. -/
structure ScoreNote where
  score : ℚ
  inlineLength : ℚ
deriving DecidableEq

/-- `scoreByLength` (readability.js lines 40-46): `length` is
`inlineTextLength(fnode.element) * coeffLength`; the function returns
`{score: length, note: {inlineLength: length}}`.  `inlineTextLength` is
external (spec §6: a non-negative integer), so the element is modelled by
that integer. -/
def scoreByLength (coeffLength : ℚ) (inlineTextLength : ℕ) : ScoreNote :=
  let length : ℚ := (inlineTextLength : ℚ) * coeffLength
  { score := length, inlineLength := length }

/-- The value of a JavaScript floating-point expression whose exact
arithmetic stays in ℚ, with the IEEE special values that division can
produce made explicit. -/
inductive JsNum where
  | num : ℚ → JsNum
  | posInf : JsNum
  | nan : JsNum
deriving DecidableEq

/-- JavaScript `x >= 0` for a `JsNum`: true for non-negative finite
numbers and `+Infinity`, false for `NaN`. -/
def JsNum.nonneg : JsNum → Prop
  | JsNum.num q => 0 ≤ q
  | JsNum.posInf => True
  | JsNum.nan => False

/-- The mutable state of a `DiffStats` instance (readability.js lines
139-144): the two running totals.  The bound `contentFnodes` function is
passed explicitly to `compare` (it is fixed per instance in the source). -/
structure DiffStats where
  lengthOfExpectedTexts : ℕ
  lengthOfDiffs : ℕ
deriving DecidableEq

/-- The `DiffStats` constructor (readability.js lines 140-144): both
running totals start at 0. -/
def DiffStats.init : DiffStats :=
  ⟨0, 0⟩

/-- `DiffStats.compare` (readability.js lines 155-166): normalise the
expected document's text and the joined text of the extracted nodes with
`collapseNewlines(trimLines(·))`, then add the normalised expected
length and the edit distance to the running totals. -/
def DiffStats.compare (contentFnodes : Dom → List String) (s : DiffStats)
    (expectedDom sourceDom : Dom) : DiffStats :=
  let expectedText := collapseNewlines (trimLines (textContent expectedDom))
  let gotText :=
    collapseNewlines (trimLines (String.intercalate "\n" (contentFnodes sourceDom)))
  { lengthOfExpectedTexts := s.lengthOfExpectedTexts + expectedText.length,
    lengthOfDiffs := s.lengthOfDiffs + leven expectedText gotText }

/-- `DiffStats.score` (readability.js lines 176-178):
`lengthOfDiffs / lengthOfExpectedTexts * 100` with JavaScript division
semantics (`0/0 = NaN`, `d/0 = +Infinity` for `d > 0`). -/
def DiffStats.score (s : DiffStats) : JsNum :=
  if s.lengthOfExpectedTexts = 0 then
    if s.lengthOfDiffs = 0 then JsNum.nan else JsNum.posInf
  else
    JsNum.num ((s.lengthOfDiffs : ℚ) / (s.lengthOfExpectedTexts : ℚ) * 100)

/-- The loop of `deviationScore` (readability.js lines 189-191): fold
`compare` over the document pairs starting from a fresh instance. -/
def runStats (contentFnodes : Dom → List String)
    (docPairs : List (Dom × Dom)) : DiffStats :=
  docPairs.foldl (fun st p => DiffStats.compare contentFnodes st p.1 p.2)
    DiffStats.init

/-- `deviationScore` (readability.js lines 187-193): build a pipeline
from `coeffs` (default `[]`), bind a fresh `DiffStats` to it, feed every
pair through `compare`, return `score()`. -/
def deviationScore (engine : Coeffs → Dom → List String)
    (docPairs : List (Dom × Dom)) (coeffs : List ℚ) : JsNum :=
  (runStats (tunedContentFnodes engine coeffs) docPairs).score

/-- The normalised expected text of one document pair, as accumulated by
`compare`. -/
def expectedTextOf (p : Dom × Dom) : String :=
  normText (textContent p.1)

/-- The normalised extracted text of one document pair under a given
extraction function, as accumulated by `compare`. -/
def gotTextOf (contentFnodes : Dom → List String) (p : Dom × Dom) : String :=
  normText (String.intercalate "\n" (contentFnodes p.2))

/-- Sum of the normalised expected-text lengths over a pair list. -/
def totalExpectedLength (docPairs : List (Dom × Dom)) : ℕ :=
  (docPairs.map (fun p => (expectedTextOf p).length)).sum

/-- Sum of the edit distances over a pair list. -/
def totalDiffs (contentFnodes : Dom → List String)
    (docPairs : List (Dom × Dom)) : ℕ :=
  (docPairs.map (fun p => leven (expectedTextOf p) (gotTextOf contentFnodes p))).sum

/-- `ContentFnodesTuner.randomTransition` (readability.js lines 224-229):
copy the solution, nudge the coefficient at the drawn index by `-0.5`
when the drawn bit is 1 and by `+0.5` when it is 0.  The two draws of
`Math.random()` are modelled as explicit outcomes `idx` (the value of
`Math.floor(Math.random() * solution.length)`) and `coin` (whether
`Math.floor(Math.random() * 2)` is 1). -/
def randomTransition (solution : List ℚ) (idx : ℕ) (coin : Bool) : List ℚ :=
  solution.set idx (solution.getD idx 0 + if coin then -(1/2 : ℚ) else (1/2 : ℚ))

/-- Modelled from the spec's wording for the collapse step ("collapse
2+ consecutive blank lines into one"): at the line level, every run of
two or more consecutive blank (empty) lines is replaced by a single
blank line; a lone blank line is kept. -/
def collapseBlankLines : List (List Char) → List (List Char)
  | [] => []
  | line :: rest =>
    match line, rest with
    | [], [] :: _ => collapseBlankLines rest
    | _, _ => line :: collapseBlankLines rest

/-- Modelled from the spec's wording of the normalisation (claim C6):
trim each line, then collapse runs of 2+ consecutive blank lines into a
single blank line. -/
def specNormText (s : String) : String :=
  ⟨joinLines (collapseBlankLines ((splitLines s.data).map trimChars))⟩

lemma splitLines_ne_nil : ∀ l : List Char, splitLines l ≠ [] := by
  intro l
  cases l with
  | nil => simp [splitLines]
  | cons c rest =>
    simp only [splitLines]
    split <;> simp

lemma splitLines_shape (l : List Char) :
    ∃ h t, splitLines l = h :: t := by
  cases hs : splitLines l with
  | nil => exact absurd hs (splitLines_ne_nil l)
  | cons h t => exact ⟨h, t, rfl⟩

lemma joinLines_cons_cons (c : Char) (h : List Char) (t : List (List Char)) :
    joinLines ((c :: h) :: t) = c :: joinLines (h :: t) := by
  cases t <;> simp [joinLines]

lemma joinLines_splitLines : ∀ l : List Char, joinLines (splitLines l) = l := by
  intro l
  induction l with
  | nil => rfl
  | cons c rest ih =>
    obtain ⟨h, t, hs⟩ := splitLines_shape rest
    by_cases hc : c = '\n'
    · subst hc
      simp only [splitLines, if_pos rfl, hs]
      rw [hs] at ih
      show joinLines ([] :: h :: t) = '\n' :: rest
      simp [joinLines, ih]
    · simp only [splitLines, if_neg hc, hs]
      rw [hs] at ih
      show joinLines ((c :: h) :: t) = c :: rest
      rw [joinLines_cons_cons, ih]

lemma splitLines_append_newline :
    ∀ (m r : List Char), '\n' ∉ m →
      splitLines (m ++ '\n' :: r) = m :: splitLines r := by
  intro m
  induction m with
  | nil =>
    intro r _
    simp [splitLines]
  | cons c m' ih =>
    intro r hm
    have hc : c ≠ '\n' := fun h => hm (h ▸ List.mem_cons_self c m')
    have hm' : '\n' ∉ m' := fun h => hm (List.mem_cons_of_mem c h)
    show splitLines (c :: (m' ++ '\n' :: r)) = (c :: m') :: splitLines r
    simp only [splitLines, if_neg hc, ih r hm']
    rfl

lemma splitLines_no_newline :
    ∀ m : List Char, '\n' ∉ m → splitLines m = [m] := by
  intro m
  induction m with
  | nil => intro _; rfl
  | cons c m' ih =>
    intro hm
    have hc : c ≠ '\n' := fun h => hm (h ▸ List.mem_cons_self c m')
    have hm' : '\n' ∉ m' := fun h => hm (List.mem_cons_of_mem c h)
    simp only [splitLines, if_neg hc, ih hm']
    rfl

lemma splitLines_joinLines :
    ∀ ls : List (List Char), ls ≠ [] → (∀ m ∈ ls, '\n' ∉ m) →
      splitLines (joinLines ls) = ls := by
  intro ls
  induction ls with
  | nil => intro h _; exact absurd rfl h
  | cons m ls' ih =>
    intro _ hmem
    cases ls' with
    | nil =>
      show splitLines (joinLines [m]) = [m]
      simp only [joinLines]
      exact splitLines_no_newline m (hmem m (List.mem_cons_self m []))
    | cons x xs =>
      show splitLines (m ++ '\n' :: joinLines (x :: xs)) = m :: x :: xs
      rw [splitLines_append_newline m _ (hmem m (List.mem_cons_self m _))]
      rw [ih (by simp) (fun a ha => hmem a (List.mem_cons_of_mem m ha))]

lemma mem_splitLines_no_newline :
    ∀ (l : List Char) (m : List Char), m ∈ splitLines l → '\n' ∉ m := by
  intro l
  induction l with
  | nil =>
    intro m hm
    simp [splitLines] at hm
    simp [hm]
  | cons c rest ih =>
    intro m hm
    obtain ⟨h, t, hs⟩ := splitLines_shape rest
    by_cases hc : c = '\n'
    · rw [hc] at hm
      simp only [splitLines, if_pos rfl] at hm
      rcases List.mem_cons.mp hm with h1 | h2
      · simp [h1]
      · exact ih m h2
    · simp only [splitLines, if_neg hc, hs] at hm
      rcases List.mem_cons.mp hm with h1 | h2
      · subst h1
        intro hin
        rcases List.mem_cons.mp hin with h3 | h4
        · exact hc h3.symm
        · exact ih h (hs ▸ List.mem_cons_self h t) h4
      · exact ih m (hs ▸ List.mem_cons_of_mem h h2)

lemma map_eq_self_mem {α : Type} {f : α → α} :
    ∀ {l : List α}, List.map f l = l → ∀ m ∈ l, f m = m := by
  intro l
  induction l with
  | nil => intro _ m hm; simp at hm
  | cons x xs ih =>
    intro heq m hm
    rw [List.map_cons, List.cons.injEq] at heq
    rcases List.mem_cons.mp hm with h1 | h2
    · exact h1 ▸ heq.1
    · exact ih heq.2 m h2

lemma mem_trimTrail : ∀ (l : List Char) (x : Char), x ∈ trimTrail l → x ∈ l := by
  intro l
  induction l with
  | nil => intro x hx; simp [trimTrail] at hx
  | cons c rest ih =>
    intro x hx
    simp only [trimTrail] at hx
    split at hx
    · split at hx
      · simp at hx
      · simp at hx
        simp [hx]
    · rcases List.mem_cons.mp hx with h1 | h2
      · simp [h1]
      · exact List.mem_cons_of_mem c (ih x h2)

lemma mem_dropWhile {α : Type} (p : α → Bool) :
    ∀ (l : List α) (x : α), x ∈ l.dropWhile p → x ∈ l := by
  intro l
  induction l with
  | nil => intro x hx; simp [List.dropWhile] at hx
  | cons c rest ih =>
    intro x hx
    rw [List.dropWhile_cons] at hx
    split at hx
    · exact List.mem_cons_of_mem c (ih x hx)
    · exact hx

lemma mem_trimChars (m : List Char) (x : Char) (hx : x ∈ trimChars m) : x ∈ m :=
  mem_dropWhile jsSpace m x (mem_trimTrail _ x hx)

lemma trimTrail_idem : ∀ l : List Char, trimTrail (trimTrail l) = trimTrail l := by
  intro l
  induction l with
  | nil => rfl
  | cons c rest ih =>
    simp only [trimTrail]
    split
    · split
      · rfl
      · next hsp =>
        simp only [trimTrail]
        simp [hsp]
    · next hne =>
      simp only [trimTrail, ih]
      simp only [if_neg hne]

lemma trimTrail_head :
    ∀ (l : List Char) (c : Char) (t : List Char),
      trimTrail l = c :: t → ∃ t', l = c :: t' := by
  intro l
  induction l with
  | nil => intro c t h; simp [trimTrail] at h
  | cons x rest _ =>
    intro c t h
    simp only [trimTrail] at h
    split at h
    · split at h
      · simp at h
      · rw [List.cons.injEq] at h
        exact ⟨rest, by rw [h.1]⟩
    · rw [List.cons.injEq] at h
      exact ⟨rest, by rw [h.1]⟩

lemma dropWhile_head_false {α : Type} (p : α → Bool) :
    ∀ (l : List α) (c : α) (t : List α),
      l.dropWhile p = c :: t → p c = false := by
  intro l
  induction l with
  | nil => intro c t h; simp [List.dropWhile] at h
  | cons x rest ih =>
    intro c t h
    rw [List.dropWhile_cons] at h
    split at h
    · exact ih c t h
    · next hx =>
      rw [List.cons.injEq] at h
      rw [← h.1]
      simpa using hx

lemma trimChars_idem : ∀ l : List Char, trimChars (trimChars l) = trimChars l := by
  intro l
  unfold trimChars
  cases ht : trimTrail (l.dropWhile jsSpace) with
  | nil => simp [List.dropWhile, trimTrail]
  | cons c t =>
    obtain ⟨t', ht'⟩ := trimTrail_head _ c t ht
    have hc : jsSpace c = false := dropWhile_head_false jsSpace l c t' ht'
    rw [List.dropWhile_cons, if_neg (by simp [hc]), ← ht, trimTrail_idem]

lemma splitLines_trimLinesL (l : List Char) :
    splitLines (trimLinesL l) = (splitLines l).map trimChars := by
  unfold trimLinesL
  apply splitLines_joinLines
  · simp [splitLines_ne_nil l]
  · intro m hm
    rw [List.mem_map] at hm
    obtain ⟨m₀, hm₀, rfl⟩ := hm
    intro hin
    exact mem_splitLines_no_newline l m₀ hm₀ (mem_trimChars m₀ '\n' hin)

lemma trimLinesL_idem (l : List Char) :
    trimLinesL (trimLinesL l) = trimLinesL l := by
  show joinLines ((splitLines (trimLinesL l)).map trimChars) = trimLinesL l
  rw [splitLines_trimLinesL, List.map_map]
  have h : (splitLines l).map (trimChars ∘ trimChars) = (splitLines l).map trimChars :=
    List.map_congr_left (fun a _ => trimChars_idem a)
  rw [h]
  rfl

lemma collapseGo_true_head :
    ∀ (l : List Char) (c : Char) (t : List Char),
      collapseGo true l = c :: t → c ≠ '\n' := by
  intro l
  induction l with
  | nil => intro c t h; simp [collapseGo] at h
  | cons x rest ih =>
    intro c t h
    simp only [collapseGo] at h
    split at h
    · exact ih c t h
    · next hx =>
      rw [List.cons.injEq] at h
      rw [← h.1]
      exact hx

lemma hasNN_tail (c : Char) (rest : List Char)
    (h : hasNN (c :: rest) = false) : hasNN rest = false := by
  cases rest with
  | nil => rfl
  | cons r rs =>
    simp only [hasNN, Bool.or_eq_false_iff] at h
    exact h.2

lemma hasNN_collapseGo : ∀ (l : List Char) (b : Bool),
    hasNN (collapseGo b l) = false := by
  intro l
  induction l with
  | nil => intro b; rfl
  | cons c rest ih =>
    intro b
    by_cases hc : c = '\n'
    · subst hc
      cases b with
      | true =>
        simp only [collapseGo, if_pos rfl]
        exact ih true
      | false =>
        simp only [collapseGo, if_pos rfl]
        cases hx : collapseGo true rest with
        | nil => rfl
        | cons c' t =>
          have hc' : c' ≠ '\n' := collapseGo_true_head rest c' t hx
          have hrest := ih true
          rw [hx] at hrest
          simp [hasNN, hc', hrest]
    · simp only [collapseGo, if_neg hc]
      cases hx : collapseGo false rest with
      | nil => rfl
      | cons c' t =>
        have hrest := ih false
        rw [hx] at hrest
        simp [hasNN, hc, hrest]

lemma collapseGo_eq_self :
    ∀ l : List Char,
      (hasNN l = false → collapseGo false l = l) ∧
      (hasNN l = false → l.head? ≠ some '\n' → collapseGo true l = l) := by
  intro l
  induction l with
  | nil => exact ⟨fun _ => rfl, fun _ _ => rfl⟩
  | cons c rest ih =>
    constructor
    · intro h
      by_cases hc : c = '\n'
      · subst hc
        have htail : hasNN rest = false := hasNN_tail _ _ h
        have hhead : rest.head? ≠ some '\n' := by
          cases rest with
          | nil => simp
          | cons r rs =>
            simp only [List.head?]
            intro hr
            rw [Option.some.injEq] at hr
            simp [hasNN, hr] at h
        simp [collapseGo, ih.2 htail hhead]
      · simp only [collapseGo, if_neg hc]
        rw [ih.1 (hasNN_tail _ _ h)]
    · intro h hhead
      have hc : c ≠ '\n' := by
        intro hceq
        exact hhead (by rw [hceq]; rfl)
      simp only [collapseGo, if_neg hc]
      rw [ih.1 (hasNN_tail _ _ h)]

lemma collapseNLL_idem (l : List Char) :
    collapseNLL (collapseNLL l) = collapseNLL l :=
  (collapseGo_eq_self _).1 (hasNN_collapseGo l false)

lemma splitLines_collapseGo :
    ∀ l : List Char,
      (∃ h t₁ t₂, splitLines l = h :: t₂ ∧
        splitLines (collapseGo false l) = h :: t₁ ∧ t₁.Sublist t₂) ∧
      (splitLines (collapseGo true l)).Sublist (splitLines l) := by
  intro l
  induction l with
  | nil =>
    refine ⟨⟨[], [], [], rfl, rfl, List.Sublist.refl []⟩, ?_⟩
    exact List.Sublist.refl _
  | cons c rest ih =>
    by_cases hc : c = '\n'
    · subst hc
      constructor
      · refine ⟨[], splitLines (collapseGo true rest), splitLines rest, ?_, ?_, ih.2⟩
        · simp [splitLines]
        · simp only [collapseGo, if_pos rfl]
          simp [splitLines]
      · simp only [collapseGo, if_pos rfl]
        have hsub : (splitLines ('\n' :: rest)) = [] :: splitLines rest := by
          simp [splitLines]
        rw [hsub]
        exact ih.2.trans (List.Sublist.cons _ (List.Sublist.refl _))
    · obtain ⟨h, t₁, t₂, hsr, hsc, hsub⟩ := ih.1
      have hgo : ∀ b : Bool, collapseGo b (c :: rest) = c :: collapseGo false rest := by
        intro b
        cases b <;> simp [collapseGo, hc]
      have hsplit : splitLines (c :: collapseGo false rest) = (c :: h) :: t₁ := by
        simp only [splitLines, if_neg hc, hsc]
        rfl
      have hsplit' : splitLines (c :: rest) = (c :: h) :: t₂ := by
        simp only [splitLines, if_neg hc, hsr]
        rfl
      constructor
      · exact ⟨c :: h, t₁, t₂, hsplit', by rw [hgo false, hsplit], hsub⟩
      · rw [hgo true, hsplit, hsplit']
        exact hsub.cons₂ (c :: h)

lemma mem_splitLines_collapseNLL (t m : List Char)
    (hm : m ∈ splitLines (collapseNLL t)) : m ∈ splitLines t := by
  obtain ⟨h, t₁, t₂, hsr, hsc, hsub⟩ := (splitLines_collapseGo t).1
  rw [show collapseNLL t = collapseGo false t from rfl, hsc] at hm
  rw [hsr]
  rcases List.mem_cons.mp hm with h1 | h2
  · exact h1 ▸ List.mem_cons_self h t₂
  · exact List.mem_cons_of_mem h (hsub.subset h2)

lemma trimmed_lines_of_fixed (t : List Char) (hfix : trimLinesL t = t) :
    ∀ m ∈ splitLines t, trimChars m = m := by
  have h1 : splitLines t = (splitLines t).map trimChars := by
    conv_lhs => rw [← hfix]
    exact splitLines_trimLinesL t
  exact map_eq_self_mem h1.symm

lemma trimLinesL_fixed_of_trimmed (u : List Char)
    (htrim : ∀ m ∈ splitLines u, trimChars m = m) : trimLinesL u = u := by
  unfold trimLinesL
  rw [List.map_congr_left htrim]
  show joinLines (List.map (fun a => a) (splitLines u)) = u
  rw [List.map_id', joinLines_splitLines]

lemma trimLinesL_collapseNLL_fixed (t : List Char) (hfix : trimLinesL t = t) :
    trimLinesL (collapseNLL t) = collapseNLL t := by
  apply trimLinesL_fixed_of_trimmed
  intro m hm
  exact trimmed_lines_of_fixed t hfix m (mem_splitLines_collapseNLL t m hm)

lemma normL_idem (l : List Char) :
    collapseNLL (trimLinesL (collapseNLL (trimLinesL l))) =
      collapseNLL (trimLinesL l) := by
  rw [trimLinesL_collapseNLL_fixed (trimLinesL l) (trimLinesL_idem l),
    collapseNLL_idem]

lemma levenL_self : ∀ l : List Char, levenL l l = 0 := by
  intro l
  induction l with
  | nil => simp [levenL]
  | cons x xs ih => simp [levenL, ih]

lemma leven_self (s : String) : leven s s = 0 :=
  levenL_self s.data

lemma totalExpectedLength_cons (p : Dom × Dom) (ps : List (Dom × Dom)) :
    totalExpectedLength (p :: ps) =
      (expectedTextOf p).length + totalExpectedLength ps := by
  simp [totalExpectedLength]

lemma totalDiffs_cons (cf : Dom → List String) (p : Dom × Dom)
    (ps : List (Dom × Dom)) :
    totalDiffs cf (p :: ps) =
      leven (expectedTextOf p) (gotTextOf cf p) + totalDiffs cf ps := by
  simp [totalDiffs]

lemma compare_eq_fields (cf : Dom → List String) (st : DiffStats)
    (e s : Dom) :
    DiffStats.compare cf st e s =
      ⟨st.lengthOfExpectedTexts + (expectedTextOf (e, s)).length,
       st.lengthOfDiffs + leven (expectedTextOf (e, s)) (gotTextOf cf (e, s))⟩ :=
  rfl

lemma foldl_compare_eq (cf : Dom → List String) (pairs : List (Dom × Dom)) :
    ∀ st : DiffStats,
      pairs.foldl (fun st p => DiffStats.compare cf st p.1 p.2) st =
        ⟨st.lengthOfExpectedTexts + totalExpectedLength pairs,
         st.lengthOfDiffs + totalDiffs cf pairs⟩ := by
  induction pairs with
  | nil =>
    intro st
    cases st
    simp [totalExpectedLength, totalDiffs]
  | cons p ps ih =>
    intro st
    obtain ⟨pe, psrc⟩ := p
    rw [List.foldl_cons]
    show List.foldl _ (DiffStats.compare cf st pe psrc) ps = _
    rw [ih, compare_eq_fields, totalExpectedLength_cons, totalDiffs_cons]
    simp only [DiffStats.mk.injEq]
    omega

lemma runStats_eq (cf : Dom → List String) (pairs : List (Dom × Dom)) :
    runStats cf pairs = ⟨totalExpectedLength pairs, totalDiffs cf pairs⟩ := by
  unfold runStats
  rw [foldl_compare_eq]
  simp [DiffStats.init]

lemma getD_set_same {α : Type} (a d : α) :
    ∀ (l : List α) (i : ℕ), i < l.length → (l.set i a).getD i d = a := by
  intro l
  induction l with
  | nil => intro i h; simp at h
  | cons x xs ih =>
    intro i h
    cases i with
    | zero => rfl
    | succ j => exact ih j (by simpa using h)

lemma getD_set_other {α : Type} (a d : α) :
    ∀ (l : List α) (i j : ℕ), j ≠ i → (l.set i a).getD j d = l.getD j d := by
  intro l
  induction l with
  | nil => intro i j _; simp [List.set]
  | cons x xs ih =>
    intro i j h
    cases i with
    | zero =>
      cases j with
      | zero => exact absurd rfl h
      | succ k => rfl
    | succ i' =>
      cases j with
      | zero => rfl
      | succ k => exact ih i' k (fun hk => h (by rw [hk]))

/-- C1: for every extraction function and document-pair list on which
`compare` has run (with positive accumulated normalised expected length,
so the division is meaningful), `score()` returns 100 multiplied by the
sum of the accumulated edit distances (`lengthOfDiffs`) divided by the
sum of the accumulated normalised expected-text lengths
(`lengthOfExpectedTexts`). -/
theorem score_eq_percent_ratio (cf : Dom → List String)
    (pairs : List (Dom × Dom)) (h : 0 < totalExpectedLength pairs) :
    (runStats cf pairs).score =
      JsNum.num (100 * (totalDiffs cf pairs : ℚ) /
        (totalExpectedLength pairs : ℚ)) := by
  rw [runStats_eq]
  unfold DiffStats.score
  dsimp only
  rw [if_neg (by omega)]
  congr 1
  ring

theorem score_eq_percent_ratio_witness :
    0 < totalExpectedLength [(Dom.mk "a", Dom.mk "a")] ∧
    (runStats (fun d => [d.text]) [(Dom.mk "a", Dom.mk "a")]).score =
      JsNum.num (100 *
        (totalDiffs (fun d => [d.text]) [(Dom.mk "a", Dom.mk "a")] : ℚ) /
        (totalExpectedLength [(Dom.mk "a", Dom.mk "a")] : ℚ)) :=
  ⟨by decide, score_eq_percent_ratio _ _ (by decide)⟩

/-- C2 counterexample: on a fresh `DiffStats` (zero comparisons) the
source's `score()` silently evaluates `0 / 0 * 100`, which is `NaN`; no
explicit error exists in the code (the codomain of the embedded `score`
has no error case because readability.js lines 176-178 are a plain
division). -/
theorem score_fresh_returns_nan :
    DiffStats.init.score = JsNum.nan ∧ JsNum.nan ≠ JsNum.num 0 := by
  decide

/-- C2 amended: if `score()` is called on a `DiffStats` instance with
zero accumulated comparisons (both running totals still 0), it silently
returns `NaN` (the JavaScript result of `0/0`); no explicit error is
raised. -/
theorem score_zero_comparisons_nan (s : DiffStats)
    (he : s.lengthOfExpectedTexts = 0) (hd : s.lengthOfDiffs = 0) :
    s.score = JsNum.nan := by
  unfold DiffStats.score
  rw [if_pos he, if_pos hd]

theorem score_zero_comparisons_nan_witness :
    DiffStats.init.score = JsNum.nan :=
  score_zero_comparisons_nan DiffStats.init rfl rfl

/-- C3: at the failing input `inlineTextLength(element) = 10` with the
default `coeffLength = 2`, `scoreByLength` sets `score = 20` as claimed,
but stores the scaled value 20 — not the raw inline length 10 — in the
node's note, contradicting the claim (and the code's own comment "Store
expensive inline length for linkDensity()"). -/
theorem scoreByLength_note_is_scaled :
    (scoreByLength 2 10).score = 20 ∧
    (scoreByLength 2 10).inlineLength = 20 ∧
    (scoreByLength 2 10).inlineLength ≠ (10 : ℚ) := by
  refine ⟨?_, ?_, ?_⟩ <;> norm_num [scoreByLength]

/-- C4 counterexample: constructing the pipeline with a coefficient
vector of the wrong length does not fail: the empty vector is accepted
and silently yields the default coefficients, and a 2-element vector is
accepted with the five missing positions defaulted. -/
theorem tunedCoeffs_wrong_length_accepted :
    tunedCoeffs [] = defaultCoeffs ∧
    tunedCoeffs [3, 7] =
      { defaultCoeffs with coeffLinkDensity := 3, coeffParagraphTag := 7 } := by
  constructor <;> rfl

/-- C4 amended: constructing a pipeline with a Coefficient Vector of the
wrong length or arbitrary entries never fails: construction always
succeeds, and each of the 7 positions independently falls back to that
position's default value when the vector is too short (extra entries are
ignored); no validation happens at construction or later. -/
theorem tunedCoeffs_positionwise (coeffs : List ℚ) (i : ℕ) (h : i < 7) :
    (tunedCoeffs coeffs).toList.getD i 0 =
      coeffs.getD i (defaultCoeffs.toList.getD i 0) := by
  interval_cases i <;> rfl

theorem tunedCoeffs_positionwise_witness :
    (tunedCoeffs [9]).toList.getD 3 0 =
      ([9] : List ℚ).getD 3 (defaultCoeffs.toList.getD 3 0) :=
  tunedCoeffs_positionwise [9] 3 (by omega)

/-- C5: `deviationScore` builds one pipeline from the coefficients,
folds `compare` over the pairs starting from a fresh `DiffStats` (both
totals zero), and returns its `score()`; the result equals the score of
the Contract-A accumulation (sum of per-pair edit distances and sum of
per-pair normalised expected lengths), for every rule engine, pair list
and coefficient vector. -/
theorem deviationScore_eq_accumulated (engine : Coeffs → Dom → List String)
    (pairs : List (Dom × Dom)) (coeffs : List ℚ) :
    deviationScore engine pairs coeffs =
      (DiffStats.mk (totalExpectedLength pairs)
        (totalDiffs (tunedContentFnodes engine coeffs) pairs)).score := by
  unfold deviationScore
  rw [runStats_eq]

/-- C8: for a 7-element coefficient vector and every outcome of the two
random draws, `randomTransition` returns a 7-element vector whose entry
at the drawn index is the original entry plus 0.5 (bit 0) or minus 0.5
(bit 1) — hence differs from the original — and whose other entries are
all unchanged; the input vector itself is copied (`slice()`), modelled
here by the function being pure. -/
theorem randomTransition_spec (s : List ℚ) (idx : ℕ) (coin : Bool)
    (hlen : s.length = 7) (hidx : idx < 7) :
    (randomTransition s idx coin).length = 7 ∧
    (randomTransition s idx coin).getD idx 0 =
      s.getD idx 0 + (if coin then -(1/2 : ℚ) else (1/2 : ℚ)) ∧
    (randomTransition s idx coin).getD idx 0 ≠ s.getD idx 0 ∧
    (∀ j : ℕ, j ≠ idx → (randomTransition s idx coin).getD j 0 = s.getD j 0) := by
  have hset := getD_set_same
    (s.getD idx 0 + if coin then -(1/2 : ℚ) else (1/2 : ℚ)) 0 s idx (by omega)
  refine ⟨?_, ?_, ?_, ?_⟩
  · simp [randomTransition, hlen]
  · exact hset
  · rw [randomTransition, hset]
    intro hq
    cases coin <;> simp at hq
  · intro j hj
    exact getD_set_other _ 0 s idx j hj

theorem randomTransition_spec_witness :
    (randomTransition [1, 2, 3, 4, 5, 6, 7] 2 true).getD 2 0 =
      ([1, 2, 3, 4, 5, 6, 7] : List ℚ).getD 2 0 + -(1/2 : ℚ) ∧
    (randomTransition [1, 2, 3, 4, 5, 6, 7] 2 true).getD 1 0 =
      ([1, 2, 3, 4, 5, 6, 7] : List ℚ).getD 1 0 := by
  constructor
  · have h := (randomTransition_spec [1, 2, 3, 4, 5, 6, 7] 2 true rfl
      (by omega)).2.1
    simpa using h
  · exact (randomTransition_spec [1, 2, 3, 4, 5, 6, 7] 2 true rfl
      (by omega)).2.2.2 1 (by omega)

/-- C9 counterexample: after one `compare` call on a pair whose texts
are both empty, `score()` is `NaN` (JavaScript `0/0`), which is not a
non-negative value — refuting the unconditional claim "for every
sequence of compare calls, score() is non-negative". -/
theorem score_nonneg_cex :
    ¬ JsNum.nonneg
      ((DiffStats.compare (fun _ => []) DiffStats.init
        (Dom.mk "") (Dom.mk "")).score) := by
  have h : DiffStats.compare (fun _ => []) DiffStats.init
      (Dom.mk "") (Dom.mk "") = DiffStats.init := by
    rw [compare_eq_fields]
    have h1 : normText (textContent (Dom.mk "")) = "" := rfl
    have h2 : normText ("\n".intercalate []) = "" := rfl
    simp [expectedTextOf, gotTextOf, h1, h2, leven_self, DiffStats.init]
  rw [h]
  simp [DiffStats.score, DiffStats.init, JsNum.nonneg]

/-- C9 amended: for every sequence of compare calls whose accumulated
normalised expected length is positive, `score()` is non-negative; and
if in every comparison the extracted text equals the expected text after
normalisation, `score()` returns 0. -/
theorem score_nonneg_and_zero (cf : Dom → List String)
    (pairs : List (Dom × Dom)) (h : 0 < totalExpectedLength pairs) :
    JsNum.nonneg ((runStats cf pairs).score) ∧
    ((∀ p ∈ pairs, gotTextOf cf p = expectedTextOf p) →
      (runStats cf pairs).score = JsNum.num 0) := by
  rw [runStats_eq]
  constructor
  · unfold DiffStats.score
    dsimp only
    rw [if_neg (by omega)]
    simp only [JsNum.nonneg]
    positivity
  · intro hall
    have hd : totalDiffs cf pairs = 0 := by
      unfold totalDiffs
      apply List.sum_eq_zero
      intro x hx
      rw [List.mem_map] at hx
      obtain ⟨p, hp, rfl⟩ := hx
      rw [hall p hp, leven_self]
    unfold DiffStats.score
    dsimp only
    rw [if_neg (by omega), hd]
    norm_num

theorem score_nonneg_and_zero_witness :
    JsNum.nonneg
      ((runStats (fun d => [d.text]) [(Dom.mk "a", Dom.mk "a")]).score) ∧
    (runStats (fun d => [d.text]) [(Dom.mk "a", Dom.mk "a")]).score =
      JsNum.num 0 :=
  ⟨(score_nonneg_and_zero _ _ (by decide)).1,
   (score_nonneg_and_zero _ _ (by decide)).2 (by
    intro p hp
    rw [List.mem_singleton] at hp
    subst hp
    rfl)⟩

/-- C10: `deviationScore` with the coefficients argument omitted (the
default `[]`) or any too-short vector does not fail; the missing
trailing positions fall back, position by position, to the built-in
defaults, so `deviationScore(pairs)` equals
`deviationScore(pairs, [1.5, 4.5, 2, 6.5, 2, 0.5, 0])`. -/
theorem deviationScore_default_coeffs :
    (∀ (engine : Coeffs → Dom → List String) (pairs : List (Dom × Dom)),
      deviationScore engine pairs [] =
        deviationScore engine pairs [1.5, 4.5, 2, 6.5, 2, 0.5, 0]) ∧
    (∀ (engine : Coeffs → Dom → List String) (pairs : List (Dom × Dom))
      (l : List ℚ), l.length ≤ 7 →
      deviationScore engine pairs l =
        deviationScore engine pairs (l ++ defaultCoeffs.toList.drop l.length)) := by
  have key : ∀ l : List ℚ, l.length ≤ 7 →
      tunedCoeffs l = tunedCoeffs (l ++ defaultCoeffs.toList.drop l.length) := by
    intro l hl
    rcases l with _ | ⟨a, _ | ⟨b, _ | ⟨c, _ | ⟨d, _ | ⟨e, _ | ⟨f, _ | ⟨g, _ | ⟨x, t⟩⟩⟩⟩⟩⟩⟩⟩
    · rfl
    · rfl
    · rfl
    · rfl
    · rfl
    · rfl
    · rfl
    · rfl
    · simp at hl
  constructor
  · intro engine pairs
    rfl
  · intro engine pairs l hl
    unfold deviationScore tunedContentFnodes
    rw [key l hl]

/-- C6 counterexample: with expected text `"a\n\nb"`, `compare`
accumulates an expected length of 3 (the code's `collapseNewlines`
deletes the blank line, giving `"a\nb"`), not the 4 predicted by the
claim's normalisation, under which a lone blank line — not a run of 2 or
more — would be kept (`specNormText "a\n\nb" = "a\n\nb"`). -/
theorem compare_spec_normalisation_cex :
    (DiffStats.compare (fun _ => []) DiffStats.init
        (Dom.mk "a\n\nb") (Dom.mk "")).lengthOfExpectedTexts ≠
      DiffStats.init.lengthOfExpectedTexts +
        (specNormText (textContent (Dom.mk "a\n\nb"))).length := by
  decide

/-- C6 amended: `compare` normalises both the expected text and the
extracted joined text by trimming each line and then collapsing every
run of 2 or more consecutive newline characters into a single newline
(so blank lines are deleted, not preserved), and accumulates the edit
distance between the two normalised strings and the length of the
normalised expected text into the running totals: the accumulation
equation holds, the normalised output never contains two consecutive
newlines, and `collapseNewlines` is the identity on strings without two
consecutive newlines. -/
theorem compare_normalisation :
    (∀ (cf : Dom → List String) (st : DiffStats) (e s : Dom),
      DiffStats.compare cf st e s =
        ⟨st.lengthOfExpectedTexts + (normText (textContent e)).length,
         st.lengthOfDiffs + leven (normText (textContent e))
           (normText (String.intercalate "\n" (cf s)))⟩) ∧
    (∀ s : String, hasNN (normText s).data = false) ∧
    (∀ s : String, hasNN s.data = false → collapseNewlines s = s) := by
  refine ⟨fun cf st e s => rfl, fun s => ?_, fun s h => ?_⟩
  · show hasNN (collapseGo false (trimLinesL s.data)) = false
    exact hasNN_collapseGo _ false
  · show String.mk (collapseGo false s.data) = s
    rw [(collapseGo_eq_self s.data).1 h]

theorem compare_normalisation_witness :
    collapseNewlines "a\nb" = "a\nb" :=
  compare_normalisation.2.2 "a\nb" (by decide)

/-- C7: the text normalisation used by the metric is idempotent —
applying `collapseNewlines ∘ trimLines` twice yields the same string as
applying it once, for every string. -/
theorem normText_idem (s : String) :
    normText (normText s) = normText s := by
  show String.mk (collapseNLL (trimLinesL (collapseNLL (trimLinesL s.data)))) =
    String.mk (collapseNLL (trimLinesL s.data))
  rw [normL_idem]

theorem deviationScore_default_coeffs_witness :
    deviationScore (fun _ _ => []) [] [1] =
      deviationScore (fun _ _ => []) [] ([1] ++ defaultCoeffs.toList.drop 1) :=
  deviationScore_default_coeffs.2 _ _ [1] (by simp)

end Readability
